import Mathlib

/-!
Verification of `analyze_distribution.py` (cairoroller).

The script is embedded shallowly:

* `parse_dice_rolls_from_input` models the extraction
  `re.findall(r"\b[1-6]\b", input_text)` followed by `int(...)`,
  as a left-to-right scan over the characters of the input.
* The statistics of `analyze_distribution` are embedded as pure
  functions over `List ℤ`, with exact rational arithmetic in place of
  Python floats; the print statements are embedded as a list of
  `OutputLine` values (one entry per `print` call, carrying the exact
  numeric payloads; decimal formatting is presentation and not modelled).

The embedding is restricted to ASCII text: Python's `\b` word boundary is
defined from `\w`, which on ASCII is exactly a letter, a digit or `_`.
-/

/-- A word character in the sense of the regex `\w` (ASCII): letter, digit
or underscore.  The boundary assertion `\b` of `re.findall(r"\b[1-6]\b", _)`
holds between a word and a non-word character (or the edge of the input). -/
def isWordChar (c : Char) : Bool := c.isAlphanum || c == '_'

/-- The character class `[1-6]` of the regex, together with the conversion
`int(num)` applied to each match: `some v` when `c` is the digit of
`v ∈ {1,...,6}`, `none` otherwise. -/
def diceDigit (c : Char) : Option ℤ :=
  if c == '1' then some 1
  else if c == '2' then some 2
  else if c == '3' then some 3
  else if c == '4' then some 4
  else if c == '5' then some 5
  else if c == '6' then some 6
  else none

/-- Whether `\b` holds just before the current character, given the
preceding character (`none` at the start of the input).  The current
character is a digit, hence a word character, so the boundary holds iff
the previous character is absent or not a word character. -/
def prevBoundary : Option Char → Bool
  | none => true
  | some p => !(isWordChar p)

/-- Whether `\b` holds just after the current character, given the rest of
the input: the boundary holds iff the input ends or the next character is
not a word character. -/
def nextBoundary : List Char → Bool
  | [] => true
  | d :: _ => !(isWordChar d)

/-- Left-to-right scan of `re.findall(r"\b[1-6]\b", text)`: every match of
the pattern is a single character, so `findall` returns, in order, the
digits 1-6 that have a word boundary on both sides.  `prev` is the
character just before the current position. -/
def findallScan (prev : Option Char) : List Char → List ℤ
  | [] => []
  | c :: rest =>
    match diceDigit c with
    | some v =>
      if prevBoundary prev && nextBoundary rest then
        v :: findallScan (some c) rest
      else findallScan (some c) rest
    | none => findallScan (some c) rest

/-- Embedding of `parse_dice_rolls_from_input` (lines 25-45 of the source),
restricted to its parsing contract: the rolls extracted from the text read
from stdin, in order of appearance, as integers. -/
def parse_dice_rolls_from_input (text : List Char) : List ℤ :=
  findallScan none text

/-- Index-based reading of the same regex, used as the specification side:
position `i` of `s` holds a standalone dice digit iff `s[i] ∈ [1-6]` and
the characters at `i-1` and `i+1` (when they exist, relative to the
context given by `prev` at `i = 0`) are not word characters. -/
def standaloneFrom (prev : Option Char) (s : List Char) (i : ℕ) : Bool :=
  (diceDigit (s.getD i ' ')).isSome
  && (if i = 0 then prevBoundary prev else !(isWordChar (s.getD (i - 1) ' ')))
  && (if i + 1 = s.length then true else !(isWordChar (s.getD (i + 1) ' ')))

/-- The digits of `s` standing at standalone positions (relative to the
context `prev`), in order of appearance. -/
def extractFrom (prev : Option Char) (s : List Char) : List ℤ :=
  ((List.range s.length).filter (standaloneFrom prev s)).filterMap
    (fun i => diceDigit (s.getD i ' '))

/-- Specification-side extraction: the digits 1-6 of `s` that are not
adjacent on either side to a word character, in order of appearance. -/
def extractSpec (s : List Char) : List ℤ := extractFrom none s

/-- Digit-only adjacency rule (the rule C2 asserts, as opposed to the word
character rule of the regex): a digit 1-6 counts iff its neighbours are
not digit characters. -/
def standaloneDigitRule (s : List Char) (i : ℕ) : Bool :=
  (diceDigit (s.getD i ' ')).isSome
  && (if i = 0 then true else !((s.getD (i - 1) ' ').isDigit))
  && (if i + 1 = s.length then true else !((s.getD (i + 1) ' ').isDigit))

/-- Extraction under the digit-only adjacency rule. -/
def extractDigitRule (s : List Char) : List ℤ :=
  ((List.range s.length).filter (standaloneDigitRule s)).filterMap
    (fun i => diceDigit (s.getD i ' '))

/-- Embedding of `Counter(rolls)[face]` (line 59 together with line 71):
the number of occurrences of `face` in `rolls`; a `Counter` returns 0 for
a key that is absent, which `List.count` does as well. -/
def counts (rolls : List ℤ) (face : ℤ) : ℕ := rolls.count face

/-- Embedding of `expected_freq = len(rolls) / 6` (line 62), in exact
rational arithmetic. -/
def expected_freq (rolls : List ℤ) : ℚ := (rolls.length : ℚ) / 6

/-- The faces iterated by `for face in range(1, 7)` (line 70). -/
def faces : List ℤ := [1, 2, 3, 4, 5, 6]

/-- Embedding of `percentage = (count / len(rolls)) * 100` (line 72). -/
def percentage (rolls : List ℤ) (face : ℤ) : ℚ :=
  ((counts rolls face : ℚ) / (rolls.length : ℚ)) * 100

/-- Embedding of `deviation = count - expected_freq` (line 73). -/
def deviation (rolls : List ℤ) (face : ℤ) : ℚ :=
  (counts rolls face : ℚ) - expected_freq rolls

/-- Embedding of `chi_square_component = (deviation**2) / expected_freq`
(line 74). -/
def chi_square_component (rolls : List ℤ) (face : ℤ) : ℚ :=
  (deviation rolls face) ^ 2 / expected_freq rolls

/-- Embedding of the accumulation `total_chi_square += chi_square_component`
over the loop `for face in range(1, 7)` starting from `total_chi_square = 0`
(lines 68-75). -/
def total_chi_square (rolls : List ℤ) : ℚ :=
  faces.foldl (fun acc face => acc + chi_square_component rolls face) 0

/-- Embedding of the verdict `total_chi_square < 11.070` (line 85): `true`
selects the "appears fair (fails to reject null hypothesis)" branch,
`false` the "may not be fair (rejects null hypothesis)" branch. -/
def verdict_fair (rolls : List ℤ) : Bool :=
  total_chi_square rolls < 11070 / 1000

/-- Embedding of `np.mean(rolls)` (line 93): sum divided by length. -/
def mean (rolls : List ℤ) : ℚ := ((rolls.map (fun r => (r : ℚ))).sum) / (rolls.length : ℚ)

/-- Embedding of `np.median(rolls)` (line 94): sort ascending, take the
middle element for odd length and the average of the two middle elements
for even length.  The `getD` default is never reached on non-empty input. -/
def median (rolls : List ℤ) : ℚ :=
  let s := List.insertionSort (fun a b => a ≤ b) rolls
  if rolls.length % 2 = 1 then ((s.getD (rolls.length / 2) 0 : ℤ) : ℚ)
  else (((s.getD (rolls.length / 2 - 1) 0 : ℤ) : ℚ)
        + ((s.getD (rolls.length / 2) 0 : ℤ) : ℚ)) / 2

/-- The sum of squared deviations from the mean, the numerator of the
sample variance used by `np.std(rolls, ddof=1)` (line 95). -/
def sum_sq_dev (rolls : List ℤ) : ℚ :=
  (rolls.map (fun r => ((r : ℚ) - mean rolls) ^ 2)).sum

/-- Embedding of `np.std(rolls, ddof=1)` (line 95) through its square, the
sample variance: numpy divides the sum of squared deviations by
`N - ddof = N - 1`; when `N = 1` that divisor is 0 and numpy produces NaN
(after a runtime warning), modelled here as `none`.  The script prints the
square root of this value; the claims concern only the divisor and
definedness, which the square root preserves. -/
def np_var_ddof1 (rolls : List ℤ) : Option ℚ :=
  if rolls.length ≤ 1 then none
  else some (sum_sq_dev rolls / ((rolls.length : ℚ) - 1))

/-- Embedding of the `ranges` dictionary (lines 104-108): label and count
of rolls falling in each bucket, in insertion order. -/
def range_counts (rolls : List ℤ) : List (String × ℕ) :=
  [("1-2 (low)", (rolls.filter (fun r => decide (r ∈ ([1, 2] : List ℤ)))).length),
   ("3-4 (mid)", (rolls.filter (fun r => decide (r ∈ ([3, 4] : List ℤ)))).length),
   ("5-6 (high)", (rolls.filter (fun r => decide (r ∈ ([5, 6] : List ℤ)))).length)]

/-- Embedding of the loop of lines 121-128 over the tail of `rolls`:
`prev` is `rolls[i-1]`, `cs` is `consecutive_same`, `mx` is
`max_consecutive` and `cur` is `current_consecutive`.  Returns the pair
`(consecutive_same, max_consecutive)` at loop exit. -/
def consec_loop : ℤ → ℕ → ℕ → ℕ → List ℤ → ℕ × ℕ
  | _, cs, mx, _, [] => (cs, mx)
  | prev, cs, mx, cur, x :: xs =>
    if x = prev then consec_loop x cs (max mx (cur + 1)) (cur + 1) xs
    else consec_loop x (if 1 < cur then cs + 1 else cs) mx 1 xs

/-- The pair `(consecutive_same, max_consecutive)` computed by lines
117-128: initial values `consecutive_same = 0`, `max_consecutive = 1`,
`current_consecutive = 1`, then the loop `for i in range(1, len(rolls))`.
On an empty list the loop body never runs. -/
def consec_pattern (rolls : List ℤ) : ℕ × ℕ :=
  match rolls with
  | [] => (0, 1)
  | x :: xs => consec_loop x 0 1 1 xs

/-- The `consecutive_same` value printed on line 133. -/
def consecutive_same (rolls : List ℤ) : ℕ := (consec_pattern rolls).1

/-- The `max_consecutive` value printed on line 132. -/
def max_consecutive (rolls : List ℤ) : ℕ := (consec_pattern rolls).2

/-- Specification side of the run analysis: the lengths of the maximal
runs of equal consecutive values of `prev :: rest`, where `cur` copies of
`prev` have already been seen.  `runsFwd p 1 t` lists the maximal run
lengths of `p :: t` in order. -/
def runsFwd (prev : ℤ) (cur : ℕ) : List ℤ → List ℕ
  | [] => [cur]
  | x :: xs => if x = prev then runsFwd x (cur + 1) xs else cur :: runsFwd x 1 xs

/-- The lengths of the maximal runs of equal consecutive values of a list,
in order; empty for the empty list. -/
def run_lengths : List ℤ → List ℕ
  | [] => []
  | x :: xs => runsFwd x 1 xs

/-- The length of the longest maximal run of equal consecutive values. -/
def longest_run (l : List ℤ) : ℕ := (run_lengths l).foldr max 0

/-- The number of maximal runs of length greater than 1, each streak
counted exactly once regardless of its length (the specification's
`run_count`). -/
def run_count_spec (l : List ℤ) : ℕ :=
  ((run_lengths l).filter (fun k => decide (1 < k))).length

/-- One value per `print` call of `analyze_distribution` (lines 54-133),
in order, carrying the exact numeric payloads of the printed line; the
decimal rendering of the payloads is presentation and not modelled. -/
inductive OutputLine
  | header
  | totalRolls (n : ℕ)
  | blank
  | freqHeader
  | tableHeader
  | rule
  | faceRow (face : ℤ) (count : ℕ) (percentage expected deviation : ℚ)
  | chiSquare (stat : ℚ)
  | criticalValue
  | verdictLine (fair : Bool)
  | statHeader
  | meanLine (m : ℚ)
  | medianLine (m : ℚ)
  | stdDevLine (variance : Option ℚ)
  | minMaxLine (mn mx : Option ℤ)
  | rangeHeader
  | rangeRow (name : String) (count : ℕ) (percentage : ℚ)
  | patternHeader
  | maxConsecutiveLine (n : ℕ)
  | consecutiveSameLine (n : ℕ)

/-- Embedding of `analyze_distribution(rolls)` (lines 52-133) as the list
of lines it prints to stdout, one `OutputLine` per `print` call, in
program order.  The Python function returns `None`; its entire observable
behaviour is this output. -/
def analyze_distribution (rolls : List ℤ) : List OutputLine :=
  [OutputLine.header, OutputLine.totalRolls rolls.length, OutputLine.blank,
   OutputLine.freqHeader, OutputLine.tableHeader, OutputLine.rule]
  ++ faces.map (fun face =>
      OutputLine.faceRow face (counts rolls face) (percentage rolls face)
        (expected_freq rolls) (deviation rolls face))
  ++ [OutputLine.rule, OutputLine.chiSquare (total_chi_square rolls),
      OutputLine.criticalValue, OutputLine.verdictLine (verdict_fair rolls),
      OutputLine.blank, OutputLine.statHeader, OutputLine.meanLine (mean rolls),
      OutputLine.medianLine (median rolls), OutputLine.stdDevLine (np_var_ddof1 rolls),
      OutputLine.minMaxLine rolls.min? rolls.max?, OutputLine.blank,
      OutputLine.rangeHeader]
  ++ (range_counts rolls).map (fun nc =>
      OutputLine.rangeRow nc.1 nc.2 (((nc.2 : ℚ) / (rolls.length : ℚ)) * 100))
  ++ [OutputLine.blank, OutputLine.patternHeader,
      OutputLine.maxConsecutiveLine (max_consecutive rolls),
      OutputLine.consecutiveSameLine (consecutive_same rolls)]

example : parse_dice_rolls_from_input ['1', '6', ' ', '2', ' ', '3'] = [2, 3] := by decide
example : parse_dice_rolls_from_input
    ['1', ' ', '6', ' ', '2', ' ', '3'] = [1, 6, 2, 3] := by decide
example : parse_dice_rolls_from_input ['a', '1'] = [] := by decide
example : extractDigitRule ['a', '1'] = [1] := by decide
example : extractSpec ['a', '1'] = [] := by decide
example : parse_dice_rolls_from_input ['(', '3', ')'] = [3] := by decide

example : run_lengths [1, 1, 2, 2, 2, 3] = [2, 3, 1] := by decide
example : longest_run [1, 1, 2, 2, 2, 3] = 3 := by decide
example : run_count_spec [1, 1, 2, 2, 2, 3] = 2 := by decide
example : consec_pattern [1, 1, 2, 2, 2, 3] = (2, 3) := by decide
example : consec_pattern [1, 1, 1, 1, 1, 1] = (0, 6) := by decide
example : consec_pattern [1, 2, 2] = (0, 2) := by decide

lemma standaloneFrom_zero (prev : Option Char) (c : Char) (rest : List Char) :
    standaloneFrom prev (c :: rest) 0
      = ((diceDigit c).isSome && prevBoundary prev && nextBoundary rest) := by
  cases rest <;> simp [standaloneFrom, nextBoundary]

lemma standaloneFrom_succ (prev : Option Char) (c : Char) (rest : List Char) (i : ℕ) :
    standaloneFrom prev (c :: rest) (i + 1) = standaloneFrom (some c) rest i := by
  cases i with
  | zero => simp [standaloneFrom, prevBoundary, eq_comm]
  | succ j => simp [standaloneFrom, eq_comm]

lemma findallScan_eq_extractFrom (s : List Char) (prev : Option Char) :
    findallScan prev s = extractFrom prev s := by
  induction s generalizing prev with
  | nil => rfl
  | cons c rest ih =>
    have hpred : (standaloneFrom prev (c :: rest)) ∘ Nat.succ
        = standaloneFrom (some c) rest := by
      funext i
      exact standaloneFrom_succ prev c rest i
    have hfun : (fun i => diceDigit ((c :: rest).getD i ' ')) ∘ Nat.succ
        = (fun i => diceDigit (rest.getD i ' ')) := by
      funext i
      simp
    have htail :
        ((List.map Nat.succ (List.range rest.length)).filter
            (standaloneFrom prev (c :: rest))).filterMap
          (fun i => diceDigit ((c :: rest).getD i ' '))
        = extractFrom (some c) rest := by
      rw [List.filter_map, hpred, List.filterMap_map, hfun]
      rfl
    rw [extractFrom, List.length_cons, List.range_succ_eq_map, List.filter_cons]
    rw [findallScan]
    cases hd : diceDigit c with
    | none =>
      have hz : standaloneFrom prev (c :: rest) 0 = false := by
        rw [standaloneFrom_zero, hd]
        rfl
      rw [hz]
      simp only [Bool.false_eq_true, if_false]
      rw [htail, ih]
    | some v =>
      have hz : standaloneFrom prev (c :: rest) 0
          = (prevBoundary prev && nextBoundary rest) := by
        rw [standaloneFrom_zero, hd]
        rfl
      rw [hz]
      cases hb : prevBoundary prev && nextBoundary rest with
      | false =>
        simp only [Bool.false_eq_true, if_false]
        rw [htail, ih]
      | true =>
        simp only [if_true]
        rw [List.filterMap_cons]
        simp only [List.getD_cons_zero, hd]
        rw [htail, ih]

lemma foldr_max_init (b : ℕ) (l : List ℕ) :
    l.foldr max b = max b (l.foldr max 0) := by
  induction l with
  | nil => simp
  | cons x l ih => simp [List.foldr_cons, ih, Nat.max_left_comm]

lemma runsFwd_le_foldr (xs : List ℤ) (p : ℤ) (c : ℕ) (b : ℕ) :
    c ≤ (runsFwd p c xs).foldr max b := by
  induction xs generalizing p c b with
  | nil => simp [runsFwd]
  | cons x xs ih =>
    by_cases h : x = p
    · subst h
      rw [runsFwd, if_pos rfl]
      exact le_trans (Nat.le_succ c) (ih x (c + 1) b)
    · rw [runsFwd, if_neg h, List.foldr_cons]
      exact Nat.le_max_left _ _

lemma consec_loop_snd (xs : List ℤ) (prev : ℤ) (cs mx cur : ℕ)
    (h1 : 1 ≤ mx) (h2 : cur ≤ mx) :
    (consec_loop prev cs mx cur xs).2 = (runsFwd prev cur xs).foldr max mx := by
  induction xs generalizing prev cs mx cur with
  | nil =>
    simp [consec_loop, runsFwd, Nat.max_eq_right h2, Nat.max_comm]
  | cons x xs ih =>
    by_cases h : x = prev
    · subst h
      rw [consec_loop, if_pos rfl, runsFwd, if_pos rfl]
      rw [ih x cs (max mx (cur + 1)) (cur + 1)
        (le_trans h1 (Nat.le_max_left _ _)) (Nat.le_max_right _ _)]
      rw [foldr_max_init (max mx (cur + 1)), foldr_max_init mx]
      have hc : cur + 1 ≤ (runsFwd x (cur + 1) xs).foldr max 0 :=
        runsFwd_le_foldr xs x (cur + 1) 0
      omega
    · rw [consec_loop, if_neg h, runsFwd, if_neg h, List.foldr_cons]
      rw [ih x _ mx 1 h1 h1]
      rw [foldr_max_init mx]
      omega

lemma max_consecutive_eq_longest_run (rolls : List ℤ) (h : rolls ≠ []) :
    max_consecutive rolls = longest_run rolls := by
  match rolls with
  | [] => exact absurd rfl h
  | x :: xs =>
    rw [max_consecutive, consec_pattern, longest_run, run_lengths]
    rw [consec_loop_snd xs x 0 1 1 (le_refl 1) (le_refl 1)]
    rw [foldr_max_init 1]
    have := runsFwd_le_foldr xs x 1 0
    omega

lemma runsFwd_const (t : List ℤ) (p : ℤ) (c : ℕ) (h : ∀ x ∈ t, x = p) :
    runsFwd p c t = [c + t.length] := by
  induction t generalizing p c with
  | nil => simp [runsFwd]
  | cons x xs ih =>
    have hx : x = p := h x (List.mem_cons_self x xs)
    subst hx
    rw [runsFwd, if_pos rfl]
    have h2 : ∀ y ∈ xs, y = x := fun y hy => h y (List.mem_cons_of_mem x hy)
    rw [ih x (c + 1) h2, List.length_cons]
    congr 1
    omega

lemma runsFwd_chain (t : List ℤ) (p : ℤ)
    (h : List.Chain' (fun a b => a ≠ b) (p :: t)) :
    runsFwd p 1 t = List.replicate (t.length + 1) 1 := by
  induction t generalizing p with
  | nil => simp [runsFwd]
  | cons x xs ih =>
    rw [List.chain'_cons] at h
    rw [runsFwd]
    have hx : ¬(x = p) := fun hxp => h.1 hxp.symm
    simp only [hx, if_false]
    rw [ih x h.2]
    simp [List.replicate_succ]

lemma foldr_max_replicate_one (n : ℕ) :
    (List.replicate (n + 1) 1).foldr max 0 = 1 := by
  induction n with
  | zero => rfl
  | succ k ih => simp [List.replicate_succ, List.foldr_cons] at *; omega

lemma sum_Icc_one_six {M : Type} [AddCommMonoid M] (g : ℤ → M) :
    ∑ f ∈ Finset.Icc (1 : ℤ) 6, g f = g 1 + g 2 + g 3 + g 4 + g 5 + g 6 := by
  have hIcc : Finset.Icc (1 : ℤ) 6 = ({1, 2, 3, 4, 5, 6} : Finset ℤ) := by
    ext x
    simp only [Finset.mem_Icc, Finset.mem_insert, Finset.mem_singleton]
    omega
  rw [hIcc]
  rw [Finset.sum_insert (by decide), Finset.sum_insert (by decide),
    Finset.sum_insert (by decide), Finset.sum_insert (by decide),
    Finset.sum_insert (by decide), Finset.sum_singleton]
  simp [add_assoc]

lemma counts_sum (l : List ℤ) (hr : ∀ x ∈ l, 1 ≤ x ∧ x ≤ 6) :
    counts l 1 + counts l 2 + counts l 3 + counts l 4 + counts l 5 + counts l 6
      = l.length := by
  induction l with
  | nil => simp [counts]
  | cons x t ih =>
    have hx := hr x (List.mem_cons_self x t)
    have ht : ∀ y ∈ t, 1 ≤ y ∧ y ≤ 6 := fun y hy => hr y (List.mem_cons_of_mem x hy)
    have ih2 := ih ht
    simp only [counts, List.count_cons, List.length_cons] at *
    obtain ⟨h1, h6⟩ := hx
    interval_cases x <;> simp <;> omega

lemma total_chi_square_eq (rolls : List ℤ) :
    total_chi_square rolls
      = chi_square_component rolls 1 + chi_square_component rolls 2
        + chi_square_component rolls 3 + chi_square_component rolls 4
        + chi_square_component rolls 5 + chi_square_component rolls 6 := by
  simp [total_chi_square, faces]

lemma expected_freq_pos (rolls : List ℤ) (h : rolls ≠ []) :
    0 < expected_freq rolls := by
  have hlen : rolls.length ≠ 0 := by
    simpa [List.length_eq_zero] using h
  have hN : 0 < (rolls.length : ℚ) := by
    exact_mod_cast Nat.pos_of_ne_zero hlen
  unfold expected_freq
  exact div_pos hN (by norm_num)

lemma chi_square_component_nonneg (rolls : List ℤ) (h : rolls ≠ []) (f : ℤ) :
    0 ≤ chi_square_component rolls f := by
  unfold chi_square_component
  exact div_nonneg (sq_nonneg _) (le_of_lt (expected_freq_pos rolls h))

lemma chi_square_component_eq_zero_iff (rolls : List ℤ) (h : rolls ≠ []) (f : ℤ) :
    chi_square_component rolls f = 0
      ↔ (counts rolls f : ℚ) = (rolls.length : ℚ) / 6 := by
  have he := expected_freq_pos rolls h
  unfold chi_square_component deviation
  constructor
  · intro h0
    rcases div_eq_zero_iff.mp h0 with h2 | h2
    · have h3 : (counts rolls f : ℚ) - expected_freq rolls = 0 := sq_eq_zero_iff.mp h2
      unfold expected_freq at h3
      linarith
    · exact absurd h2 (ne_of_gt he)
  · intro hc
    unfold expected_freq at hc ⊢
    rw [hc]
    simp

/-- C1 (code bug): for the sequence `[1,1,1,1,1,1]` the spec's `run_count`
is 1 (one maximal run of length greater than 1), but the loop of lines
117-128 only increments `consecutive_same` when a streak is followed by a
different value, so a streak that reaches the end of the sequence is never
counted and the program reports 0 while reporting a maximum run of 6. -/
theorem consecutive_same_drops_final_run :
    consecutive_same [1, 1, 1, 1, 1, 1] = 0
    ∧ run_count_spec [1, 1, 1, 1, 1, 1] = 1
    ∧ max_consecutive [1, 1, 1, 1, 1, 1] = 6 := by decide

/-- C2 counterexample: the claim's "standalone iff not adjacent to other
digit characters" rule extracts the 1 of `"a1"` (its neighbour is a
letter, not a digit), but the parser's `\b` boundary requires non-word
neighbours, so `"a1"` yields no roll: the two disagree at this input. -/
theorem parser_digit_rule_counterexample :
    parse_dice_rolls_from_input ['a', '1'] = []
    ∧ extractDigitRule ['a', '1'] = [1] := by decide

/-- C2 (amended): for every input text the parser extracts exactly the
single digits 1-6 that are not adjacent on either side to a word
character (letter, digit or underscore), in order of appearance, as
integers; in particular `"16 2 3"` yields `[2, 3]` and `"1 6 2 3"`
yields `[1, 6, 2, 3]`. -/
theorem parser_extracts_standalone_tokens :
    (∀ s : List Char, parse_dice_rolls_from_input s = extractSpec s)
    ∧ parse_dice_rolls_from_input ['1', '6', ' ', '2', ' ', '3'] = [2, 3]
    ∧ parse_dice_rolls_from_input ['1', ' ', '6', ' ', '2', ' ', '3']
        = [1, 6, 2, 3] :=
  ⟨fun s => findallScan_eq_extractFrom s none, by decide, by decide⟩

/-- C3 (code bug): `np.std(rolls, ddof=1)` does use Bessel's correction —
for `[3, 4]` the sample variance is `1/2` (divisor `N - 1 = 1`, not `1/4`
as a divisor of `N = 2` would give) and for `[4, 4]` it is 0 — but at
`N = 1` the divisor `N - 1` is zero and numpy silently produces NaN
(modelled by `none`); no `InsufficientSampleError` exists anywhere in the
code. -/
theorem np_std_ddof1_nan_at_single :
    np_var_ddof1 [4] = none
    ∧ np_var_ddof1 [4, 4] = some 0
    ∧ np_var_ddof1 [3, 4] = some (1 / 2) := by
  refine ⟨?_, ?_, ?_⟩ <;> norm_num [np_var_ddof1, sum_sq_dev, mean]

/-- C10: for every input text the extractor returns exactly those digits
1-6 not adjacent on either side to any word character (letter, digit or
underscore): `extractSpec` is the index-wise statement of that rule, and
a digit next to a letter or underscore (`"a1"`, `"roll_3"`) yields no
roll while a digit surrounded by punctuation (`"(3)"`) is extracted. -/
theorem extractor_word_boundary_rule :
    (∀ s : List Char, parse_dice_rolls_from_input s = extractSpec s)
    ∧ parse_dice_rolls_from_input ['a', '1'] = []
    ∧ parse_dice_rolls_from_input ['r', 'o', 'l', 'l', '_', '3'] = []
    ∧ parse_dice_rolls_from_input ['(', '3', ')'] = [3] :=
  ⟨fun s => findallScan_eq_extractFrom s none, by decide, by decide, by decide⟩

/-- C7: for every non-empty roll sequence the reported `max_consecutive`
equals the length of the longest maximal run of equal consecutive values,
is at least 1, equals the sequence length when all values are identical,
and equals 1 when no two adjacent values are equal. -/
theorem max_run_correct (rolls : List ℤ) (h : rolls ≠ []) :
    max_consecutive rolls = longest_run rolls
    ∧ 1 ≤ max_consecutive rolls
    ∧ ((∀ a ∈ rolls, ∀ b ∈ rolls, a = b) → max_consecutive rolls = rolls.length)
    ∧ (List.Chain' (fun a b => a ≠ b) rolls → max_consecutive rolls = 1) := by
  have heq := max_consecutive_eq_longest_run rolls h
  obtain ⟨x, xs, rfl⟩ : ∃ a l, rolls = a :: l := by
    cases rolls with
    | nil => exact absurd rfl h
    | cons a l => exact ⟨a, l, rfl⟩
  refine ⟨heq, ?_, ?_, ?_⟩
  · rw [heq, longest_run, run_lengths]
    have := runsFwd_le_foldr xs x 1 0
    omega
  · intro hall
    have hxs : ∀ y ∈ xs, y = x := fun y hy =>
      hall y (List.mem_cons_of_mem x hy) x (List.mem_cons_self x xs)
    rw [heq, longest_run, run_lengths, runsFwd_const xs x 1 hxs]
    simp [List.length_cons]
    omega
  · intro hchain
    rw [heq, longest_run, run_lengths, runsFwd_chain xs x hchain,
      foldr_max_replicate_one]

/-- Witness for C7 at the concrete sequence `[5, 5, 2]`. -/
theorem max_run_correct_witness :
    (([5, 5, 2] : List ℤ) ≠ [])
    ∧ (max_consecutive [5, 5, 2] = longest_run [5, 5, 2]
      ∧ 1 ≤ max_consecutive [5, 5, 2]
      ∧ ((∀ a ∈ ([5, 5, 2] : List ℤ), ∀ b ∈ ([5, 5, 2] : List ℤ), a = b)
          → max_consecutive [5, 5, 2] = ([5, 5, 2] : List ℤ).length)
      ∧ (List.Chain' (fun a b => a ≠ b) ([5, 5, 2] : List ℤ)
          → max_consecutive [5, 5, 2] = 1)) :=
  ⟨by decide, max_run_correct [5, 5, 2] (by decide)⟩

/-- C4: for every non-empty roll sequence with values in 1..6 the total
chi-square statistic equals the sum over the six faces of
`(count(f) - N/6)^2 / (N/6)`, is non-negative, and vanishes exactly when
every face count equals `N/6`. -/
theorem total_chi_square_correct (rolls : List ℤ) (h : rolls ≠ [])
    (hr : ∀ x ∈ rolls, 1 ≤ x ∧ x ≤ 6) :
    total_chi_square rolls
        = ∑ f ∈ Finset.Icc (1 : ℤ) 6,
            (((counts rolls f : ℚ) - (rolls.length : ℚ) / 6) ^ 2
              / ((rolls.length : ℚ) / 6))
    ∧ 0 ≤ total_chi_square rolls
    ∧ (total_chi_square rolls = 0
        ↔ ∀ f ∈ Finset.Icc (1 : ℤ) 6,
            (counts rolls f : ℚ) = (rolls.length : ℚ) / 6) := by
  have hcomp := chi_square_component_nonneg rolls h
  refine ⟨?_, ?_, ?_⟩
  · rw [sum_Icc_one_six, total_chi_square_eq]
    simp only [chi_square_component, deviation, expected_freq]
  · rw [total_chi_square_eq]
    linarith [hcomp 1, hcomp 2, hcomp 3, hcomp 4, hcomp 5, hcomp 6]
  · constructor
    · intro h0
      rw [total_chi_square_eq] at h0
      have e1 : chi_square_component rolls 1 = 0 := by
        linarith [hcomp 1, hcomp 2, hcomp 3, hcomp 4, hcomp 5, hcomp 6]
      have e2 : chi_square_component rolls 2 = 0 := by
        linarith [hcomp 1, hcomp 2, hcomp 3, hcomp 4, hcomp 5, hcomp 6]
      have e3 : chi_square_component rolls 3 = 0 := by
        linarith [hcomp 1, hcomp 2, hcomp 3, hcomp 4, hcomp 5, hcomp 6]
      have e4 : chi_square_component rolls 4 = 0 := by
        linarith [hcomp 1, hcomp 2, hcomp 3, hcomp 4, hcomp 5, hcomp 6]
      have e5 : chi_square_component rolls 5 = 0 := by
        linarith [hcomp 1, hcomp 2, hcomp 3, hcomp 4, hcomp 5, hcomp 6]
      have e6 : chi_square_component rolls 6 = 0 := by
        linarith [hcomp 1, hcomp 2, hcomp 3, hcomp 4, hcomp 5, hcomp 6]
      intro f hf
      rw [Finset.mem_Icc] at hf
      obtain ⟨hf1, hf6⟩ := hf
      interval_cases f
      · exact (chi_square_component_eq_zero_iff rolls h 1).mp e1
      · exact (chi_square_component_eq_zero_iff rolls h 2).mp e2
      · exact (chi_square_component_eq_zero_iff rolls h 3).mp e3
      · exact (chi_square_component_eq_zero_iff rolls h 4).mp e4
      · exact (chi_square_component_eq_zero_iff rolls h 5).mp e5
      · exact (chi_square_component_eq_zero_iff rolls h 6).mp e6
    · intro hall
      rw [total_chi_square_eq]
      have e : ∀ g, 1 ≤ g → g ≤ 6 → chi_square_component rolls g = 0 := fun g h1 h6 =>
        (chi_square_component_eq_zero_iff rolls h g).mpr
          (hall g (Finset.mem_Icc.mpr ⟨h1, h6⟩))
      rw [e 1 (by norm_num) (by norm_num), e 2 (by norm_num) (by norm_num),
        e 3 (by norm_num) (by norm_num), e 4 (by norm_num) (by norm_num),
        e 5 (by norm_num) (by norm_num), e 6 (by norm_num) (by norm_num)]
      norm_num

/-- Witness for C4 at the concrete sequence `[1, 2, 3, 4, 5, 6]`. -/
theorem total_chi_square_correct_witness :
    ((([1, 2, 3, 4, 5, 6] : List ℤ) ≠ [])
      ∧ (∀ x ∈ ([1, 2, 3, 4, 5, 6] : List ℤ), 1 ≤ x ∧ x ≤ 6))
    ∧ (total_chi_square [1, 2, 3, 4, 5, 6]
          = ∑ f ∈ Finset.Icc (1 : ℤ) 6,
              (((counts [1, 2, 3, 4, 5, 6] f : ℚ)
                  - (([1, 2, 3, 4, 5, 6] : List ℤ).length : ℚ) / 6) ^ 2
                / ((([1, 2, 3, 4, 5, 6] : List ℤ).length : ℚ) / 6))
      ∧ 0 ≤ total_chi_square [1, 2, 3, 4, 5, 6]
      ∧ (total_chi_square [1, 2, 3, 4, 5, 6] = 0
          ↔ ∀ f ∈ Finset.Icc (1 : ℤ) 6,
              (counts [1, 2, 3, 4, 5, 6] f : ℚ)
                = (([1, 2, 3, 4, 5, 6] : List ℤ).length : ℚ) / 6)) :=
  ⟨⟨by decide, by decide⟩,
    total_chi_square_correct [1, 2, 3, 4, 5, 6] (by decide) (by decide)⟩

/-- C5: the verdict compares the total chi-square statistic against the
fixed constant 11.070 with a strict inequality — `true` ("appears fair /
fails to reject") exactly when the statistic is strictly below 11.070,
`false` ("may not be fair / rejects") otherwise — and is the value printed
by the verdict line; at `[1,2,3,4,5,6]` (statistic 0) the verdict is fair
and at `[1,1,1,1,1,1]` (statistic 30) it is not. -/
theorem chi_square_verdict (rolls : List ℤ) :
    (verdict_fair rolls = true ↔ total_chi_square rolls < 11070 / 1000)
    ∧ (verdict_fair rolls = false ↔ 11070 / 1000 ≤ total_chi_square rolls)
    ∧ OutputLine.verdictLine (verdict_fair rolls) ∈ analyze_distribution rolls
    ∧ verdict_fair [1, 2, 3, 4, 5, 6] = true
    ∧ verdict_fair [1, 1, 1, 1, 1, 1] = false := by
  refine ⟨by simp [verdict_fair], by simp [verdict_fair, not_lt], ?_, ?_, ?_⟩
  · simp [analyze_distribution]
  · simp only [verdict_fair, decide_eq_true_eq]
    norm_num [total_chi_square_eq, chi_square_component, deviation, expected_freq,
      counts, List.count_cons, List.count_nil]
  · simp only [verdict_fair, decide_eq_false_iff_not, not_lt]
    norm_num [total_chi_square_eq, chi_square_component, deviation, expected_freq,
      counts, List.count_cons, List.count_nil]

/-- C6 counterexample: the analyzer does print — at the valid input
`[1, 2]` its embedded output (one entry per `print` call) is non-empty,
so "no side effects beyond returning the Report" fails on the code, which
returns nothing and writes the whole report to stdout. -/
theorem analyze_distribution_prints : analyze_distribution [1, 2] ≠ [] := by
  simp [analyze_distribution]

/-- C6 (amended): the analyzer does not mutate its input, but instead of
returning a Report it prints the report: for every input sequence it
writes exactly 31 lines to standard output and returns nothing. -/
theorem analyze_output_lines (rolls : List ℤ) :
    (analyze_distribution rolls).length = 31 ∧ analyze_distribution rolls ≠ [] := by
  constructor
  · simp [analyze_distribution, faces, range_counts]
  · simp [analyze_distribution]

/-- C8: for every non-empty sequence of integers in 1..6 the frequency
table has an entry for every face (a face absent from the input counts 0),
and the six per-face counts sum exactly to the sequence length. -/
theorem freq_table_sum (rolls : List ℤ) (h : rolls ≠ [])
    (hr : ∀ x ∈ rolls, 1 ≤ x ∧ x ≤ 6) :
    (∀ f : ℤ, f ∉ rolls → counts rolls f = 0)
    ∧ ∑ f ∈ Finset.Icc (1 : ℤ) 6, counts rolls f = rolls.length := by
  refine ⟨fun f hf => List.count_eq_zero.mpr hf, ?_⟩
  rw [sum_Icc_one_six (fun f => counts rolls f)]
  exact counts_sum rolls hr

/-- Witness for C8 at the concrete sequence `[3, 3, 5]`. -/
theorem freq_table_sum_witness :
    ((([3, 3, 5] : List ℤ) ≠ [])
      ∧ (∀ x ∈ ([3, 3, 5] : List ℤ), 1 ≤ x ∧ x ≤ 6))
    ∧ ((∀ f : ℤ, f ∉ ([3, 3, 5] : List ℤ) → counts [3, 3, 5] f = 0)
      ∧ ∑ f ∈ Finset.Icc (1 : ℤ) 6, counts [3, 3, 5] f
          = ([3, 3, 5] : List ℤ).length) :=
  ⟨⟨by decide, by decide⟩, freq_table_sum [3, 3, 5] (by decide) (by decide)⟩

/-- C9: for every non-empty sequence of integers in 1..6 the six per-face
percentages `100 * count(f) / N` sum to exactly 100 in exact rational
arithmetic. -/
theorem percentages_sum_to_100 (rolls : List ℤ) (h : rolls ≠ [])
    (hr : ∀ x ∈ rolls, 1 ≤ x ∧ x ≤ 6) :
    ∑ f ∈ Finset.Icc (1 : ℤ) 6, percentage rolls f = 100 := by
  have hlen : rolls.length ≠ 0 := by simpa [List.length_eq_zero] using h
  have hN : (rolls.length : ℚ) ≠ 0 := Nat.cast_ne_zero.mpr hlen
  have hc : (counts rolls 1 : ℚ) + (counts rolls 2 : ℚ) + (counts rolls 3 : ℚ)
      + (counts rolls 4 : ℚ) + (counts rolls 5 : ℚ) + (counts rolls 6 : ℚ)
      = (rolls.length : ℚ) := by
    exact_mod_cast counts_sum rolls hr
  rw [sum_Icc_one_six (fun f => percentage rolls f)]
  simp only [percentage]
  field_simp
  linarith

/-- Witness for C9 at the concrete sequence `[2, 2, 6]`. -/
theorem percentages_sum_to_100_witness :
    ((([2, 2, 6] : List ℤ) ≠ [])
      ∧ (∀ x ∈ ([2, 2, 6] : List ℤ), 1 ≤ x ∧ x ≤ 6))
    ∧ ∑ f ∈ Finset.Icc (1 : ℤ) 6, percentage [2, 2, 6] f = 100 :=
  ⟨⟨by decide, by decide⟩, percentages_sum_to_100 [2, 2, 6] (by decide) (by decide)⟩
